import Mathlib

/-!
# Tea Timer core logic: a shallow embedding

This file embeds the core logic of the tea-timer application (`src/App.js`)
in Lean 4 and proves the specification's claims about it.

Modelling conventions:
* JavaScript numbers are modelled as exact rationals (`ℚ`); the timer's
  elapsed milliseconds, which the code only ever holds as a non-negative
  integer, are modelled as `ℕ`.
* Strings are modelled as Lean `String` / `List Char`; text-producing
  functions are defined on `List Char` and wrapped.
* The host primitives `new Date(x).toLocaleString()` and the number-printing
  part of `JSON.stringify` are environment-supplied functions; they enter the
  embedding as explicit parameters, constrained by hypotheses that state
  their ECMAScript contracts where a theorem needs them.
* Effects (reading and writing `localStorage`) are modelled by explicit
  state passing of the stored value (`Option String`).
-/

namespace TeaTimer

/-! ## Decimal digits and number formatting helpers -/

/-- The decimal digit character for `n % 10` (models `Number.prototype.toString`
digit emission). -/
def digitChar (n : ℕ) : Char := Char.ofNat (48 + n % 10)

/-- Decimal digit list of `n`, most significant first; `fuel` bounds the
recursion (any `fuel > n` is enough, and the wrapper passes `n + 1`). -/
def natToDigits : ℕ → ℕ → List Char
  | 0, _ => []
  | fuel + 1, n => if n < 10 then [digitChar n] else natToDigits fuel (n / 10) ++ [digitChar (n % 10)]

/-- Decimal string of a natural number, as JavaScript prints integral values. -/
def natToString (n : ℕ) : String := (natToDigits (n + 1) n).asString

/-- `String.prototype.padStart(2, '0')`: prepend zeros up to length 2. -/
def padStart2 (s : String) : String :=
  (List.replicate (2 - s.length) '0').asString ++ s

/-- A natural number printed and zero-padded to (at least) two digits, as in
`minutes.toString().padStart(2, '0')`. -/
def pad2 (n : ℕ) : String := padStart2 (natToString n)

/-- `Number.prototype.toFixed(2)` (for `|x| < 10²¹`, the only range the
application can produce): round `|x|·100` to the nearest integer, half away
from zero, then print with two decimal places and the sign. -/
def toFixed2 (q : ℚ) : String :=
  let n : ℕ := (⌊|q| * 100 + 1/2⌋).toNat
  (if q < 0 then "-" else "") ++ natToString (n / 100) ++ "." ++ pad2 (n % 100)

/-! ## The data model

`Session` mirrors the object literal built in `handleSave`
(`src/App.js:76-82`): `{id, time, timeMinutes, date, notes}`. -/

structure Session where
  id : ℚ
  time : ℚ
  timeMinutes : ℚ
  date : String
  notes : String
  deriving DecidableEq, Repr

/-- The component state of the timer view (`src/App.js:7-15`), restricted to
the fields the core logic reads or writes. -/
structure AppState where
  time : ℕ
  isRunning : Bool
  showSaveDialog : Bool
  notes : String
  sessions : List Session
  deriving DecidableEq, Repr

/-! ## Timer display (`formatTime`, `src/App.js:52-61`) -/

/-- `formatTime`: milliseconds to `MM:SS.CC`.  Each arithmetic step mirrors
the JavaScript line for line (`Math.floor` is `ℕ` division here because the
argument is a non-negative integer). -/
def formatTime (milliseconds : ℕ) : String :=
  let totalSeconds := milliseconds / 1000
  let minutes := totalSeconds / 60
  let seconds := totalSeconds % 60
  let ms := (milliseconds % 1000) / 10
  pad2 minutes ++ ":" ++ pad2 seconds ++ "." ++ pad2 ms

/-! ## Saving a session (`handleSave` and `handleReset`, `src/App.js:64-87`) -/

/-- The session object literal of `src/App.js:76-82`; `now` models
`Date.now()` and `iso` models `new Date().toISOString()`. -/
def mkSession (now : ℚ) (iso : String) (st : AppState) : Session :=
  { id := now
    time := (st.time : ℚ)
    timeMinutes := (st.time : ℚ) / 60000
    date := iso
    notes := st.notes }

/-- `handleReset` (`src/App.js:68-72`). -/
def handleReset (st : AppState) : AppState :=
  { st with time := 0, isRunning := false, notes := "" }

/-- `handleSave` (`src/App.js:74-87`): guarded on `time > 0`; appends the new
session, closes the dialog, and resets the timer.  Otherwise leaves the state
untouched. -/
def handleSave (now : ℚ) (iso : String) (st : AppState) : AppState :=
  if st.time > 0 then
    handleReset { st with
      sessions := st.sessions ++ [mkSession now iso st]
      showSaveDialog := false }
  else st

/-! ## Statistics (`getStats`, `src/App.js:99-112`)

JavaScript returns the *number* `0` for the three statistics of an empty log
and `toFixed(2)` *strings* otherwise; `StatVal` keeps that distinction. -/

inductive StatVal where
  | num (q : ℚ)
  | str (s : String)
  deriving DecidableEq, Repr

structure Stats where
  average : StatVal
  shortest : StatVal
  longest : StatVal
  deriving DecidableEq, Repr

/-- `Math.min(...times)` for the non-empty argument list (the empty case is
unreachable behind the length guard in `getStats`; `Math.min()` would be
`+∞`, which the total model returns as `0`). -/
def listMin : List ℚ → ℚ
  | [] => 0
  | t :: ts => ts.foldl min t

/-- `Math.max(...times)` for the non-empty argument list (same guard note as
`listMin`). -/
def listMax : List ℚ → ℚ
  | [] => 0
  | t :: ts => ts.foldl max t

/-- `getStats` (`src/App.js:99-112`). -/
def getStats (sessions : List Session) : Stats :=
  if sessions.length = 0 then
    { average := .num 0, shortest := .num 0, longest := .num 0 }
  else
    let times := sessions.map (·.timeMinutes)
    let average := times.foldl (· + ·) 0 / (times.length : ℚ)
    { average := .str (toFixed2 average)
      shortest := .str (toFixed2 (listMin times))
      longest := .str (toFixed2 (listMax times)) }

/-! ## Recent sessions (`sessions.slice(-3).reverse()`, `src/App.js:300`)

The code instantiates `n = 3`; the definition generalises the JavaScript
`slice(-n)` start index `max(len - n, 0)`, which is exactly `ℕ`
subtraction. `slice` copies the array, so the subsequent in-place `reverse`
never mutates `sessions`. -/

def recent (n : ℕ) (sessions : List Session) : List Session :=
  (sessions.drop (sessions.length - n)).reverse

/-! ## CSV export (`exportToCSV`, `src/App.js:117-128`)

Only the text-building part is core logic; the `Blob`/anchor download
plumbing (`src/App.js:130-138`) is the external file-save collaborator.
`fmtDate` stands for the host's `new Date(d).toLocaleString()`. -/

/-- `Array.prototype.join(sep)`. -/
def joinWith (sep : String) : List String → String
  | [] => ""
  | [x] => x
  | x :: xs => x ++ sep ++ joinWith sep xs

/-- `s.notes || ''`: the empty string is falsy in JavaScript. -/
def jsOrEmpty (s : String) : String := if s = "" then "" else s

/-- One CSV data row's cells, before quoting (`src/App.js:119-123`). -/
def csvCells (fmtDate : String → String) (s : Session) : List String :=
  [fmtDate s.date, toFixed2 s.timeMinutes, jsOrEmpty s.notes]

/-- `exportToCSV`'s `csvContent` (`src/App.js:117-128`): unquoted header via
`headers.join(',')`, then one row per session with every cell wrapped in
double quotes, all joined with newlines. -/
def exportToCSV (fmtDate : String → String) (sessions : List Session) : String :=
  let headers := ["Date", "Time (minutes)", "Notes"]
  let rows := sessions.map (csvCells fmtDate)
  joinWith "\n"
    (joinWith "," headers ::
      rows.map (fun row => joinWith "," (row.map (fun cell => "\"" ++ cell ++ "\""))))

/-! ## JSON values

`localStorage` stores the session log as `JSON.stringify(sessions)` and the
load effect applies `JSON.parse` to whatever is stored (`src/App.js:17-30`).
`Jval` is the result type of `JSON.parse`; numbers are exact rationals. -/

inductive Jval where
  | null
  | jbool (b : Bool)
  | num (q : ℚ)
  | str (s : String)
  | arr (elems : List Jval)
  | obj (members : List (String × Jval))
  deriving Repr

/-! ### The printing side of `JSON.stringify` -/

/-- Lower-case hexadecimal digit for `n < 16`. -/
def hexDigitChar (n : ℕ) : Char :=
  if n < 10 then digitChar n else Char.ofNat (97 + (n - 10))

/-- Escaping of one character inside a JSON string literal, exactly as
ECMAScript's `QuoteJSONString` does for characters `JSON.stringify` can see
(Lean `Char`s are Unicode scalars, so the lone-surrogate case is vacuous). -/
def escapeChar (c : Char) : List Char :=
  if c = '"' then ['\\', '"']
  else if c = '\\' then ['\\', '\\']
  else if c = Char.ofNat 8 then ['\\', 'b']
  else if c = Char.ofNat 12 then ['\\', 'f']
  else if c = '\n' then ['\\', 'n']
  else if c = Char.ofNat 13 then ['\\', 'r']
  else if c = '\t' then ['\\', 't']
  else if c.toNat < 32 then
    ['\\', 'u', '0', '0', hexDigitChar (c.toNat / 16), hexDigitChar (c.toNat % 16)]
  else [c]

/-- A JSON string literal: quotes around the escaped characters. -/
def quoteChars (s : List Char) : List Char :=
  '"' :: s.flatMap escapeChar ++ ['"']

/-- `Array.prototype.join` at the character-list level. -/
def joinChars (sep : List Char) : List (List Char) → List Char
  | [] => []
  | [x] => x
  | x :: xs => x ++ sep ++ joinChars sep xs

/-- `JSON.stringify` of one session object, with members in the insertion
order of the object literal of `src/App.js:76-82`.  `ntos` is the host's
number-to-shortest-decimal printing (`Number::toString`), an environment
parameter. -/
def encodeSessionChars (ntos : ℚ → List Char) (s : Session) : List Char :=
  '{' :: quoteChars "id".toList ++ ':' :: ntos s.id
      ++ ',' :: quoteChars "time".toList ++ ':' :: ntos s.time
      ++ ',' :: quoteChars "timeMinutes".toList ++ ':' :: ntos s.timeMinutes
      ++ ',' :: quoteChars "date".toList ++ ':' :: quoteChars s.date.toList
      ++ ',' :: quoteChars "notes".toList ++ ':' :: quoteChars s.notes.toList
      ++ ['}']

/-- `JSON.stringify(sessions)` (`src/App.js:28`). -/
def stringifyLogChars (ntos : ℚ → List Char) (sessions : List Session) : List Char :=
  '[' :: joinChars [','] (sessions.map (encodeSessionChars ntos)) ++ [']']

/-- `JSON.stringify(sessions)` as a string. -/
def stringifySessions (ntos : ℚ → List Char) (sessions : List Session) : String :=
  (stringifyLogChars ntos sessions).asString

/-! ### `JSON.parse` -/

/-- JSON insignificant whitespace. -/
def isJsonWs (c : Char) : Bool := c = ' ' || c = '\t' || c = '\n' || c = Char.ofNat 13

/-- Skip insignificant whitespace. -/
def skipWs (cs : List Char) : List Char := cs.dropWhile isJsonWs

/-- Hexadecimal digit value. -/
def hexVal (c : Char) : Option ℕ :=
  if '0' ≤ c ∧ c ≤ '9' then some (c.toNat - 48)
  else if 'a' ≤ c ∧ c ≤ 'f' then some (c.toNat - 97 + 10)
  else if 'A' ≤ c ∧ c ≤ 'F' then some (c.toNat - 65 + 10)
  else none

/-- Value of a `\uXXXX` escape's four hex digits. -/
def hex4 (h1 h2 h3 h4 : Char) : Option ℕ := do
  let a ← hexVal h1
  let b ← hexVal h2
  let c ← hexVal h3
  let d ← hexVal h4
  pure (a * 4096 + b * 256 + c * 16 + d)

/-- Single-character escapes of JSON strings. -/
def unescapeChar (c : Char) : Option Char :=
  if c = '"' then some '"'
  else if c = '\\' then some '\\'
  else if c = '/' then some '/'
  else if c = 'b' then some (Char.ofNat 8)
  else if c = 'f' then some (Char.ofNat 12)
  else if c = 'n' then some '\n'
  else if c = 'r' then some (Char.ofNat 13)
  else if c = 't' then some '\t'
  else none

/-- Decode one escape sequence of a JSON string literal (the backslash
already consumed): the decoded character and the rest of the input.
Surrogate `\u` escape pairs combine into the coded scalar as `JSON.parse`
does; a lone surrogate, which Lean `Char` cannot represent, is rejected. -/
def decodeEscape (rest : List Char) : Option (Char × List Char) :=
  match rest with
  | [] => none
  | e :: rest2 =>
    if e = 'u' then
      match rest2 with
      | h1 :: h2 :: h3 :: h4 :: rest3 =>
        match hex4 h1 h2 h3 h4 with
        | none => none
        | some n =>
          if 55296 ≤ n ∧ n ≤ 56319 then
            match rest3 with
            | b1 :: b2 :: g1 :: g2 :: g3 :: g4 :: rest4 =>
              if b1 = '\\' ∧ b2 = 'u' then
                match hex4 g1 g2 g3 g4 with
                | none => none
                | some m =>
                  if 56320 ≤ m ∧ m ≤ 57343 then
                    some (Char.ofNat (65536 + (n - 55296) * 1024 + (m - 56320)), rest4)
                  else none
              else none
            | _ => none
          else if 56320 ≤ n ∧ n ≤ 57343 then none
          else some (Char.ofNat n, rest3)
      | _ => none
    else
      match unescapeChar e with
      | some uc => some (uc, rest2)
      | none => none

/-- Parse the body of a JSON string literal (the opening quote already
consumed) up to and including the closing quote; returns the decoded
characters and the rest of the input.  Raw control characters are illegal in
JSON strings.  `fuel` bounds the recursion; every step consumes at least one
input character, so callers pass one more than the input length. -/
def parseStrBody : ℕ → List Char → Option (List Char × List Char)
  | 0, _ => none
  | fuel + 1, cs =>
    match cs with
    | [] => none
    | c :: rest =>
      if c = '"' then some ([], rest)
      else if c = '\\' then
        match decodeEscape rest with
        | some (uc, rest2) =>
          match parseStrBody fuel rest2 with
          | some (s, r) => some (uc :: s, r)
          | none => none
        | none => none
      else if c.toNat < 32 then none
      else
        match parseStrBody fuel rest with
        | some (s, r) => some (c :: s, r)
        | none => none

/-- Characters that can occur in a JSON number token. -/
def isNumChar (c : Char) : Bool :=
  c.isDigit || c = '-' || c = '+' || c = '.' || c = 'e' || c = 'E'

/-- Value of a digit run, most significant first. -/
def digitsVal (ds : List Char) : ℕ :=
  ds.foldl (fun a c => a * 10 + (c.toNat - 48)) 0

/-- Split off a leading digit run. -/
def takeDigits (cs : List Char) : List Char × List Char :=
  (cs.takeWhile Char.isDigit, cs.dropWhile Char.isDigit)

/-- Fraction part of a number token: digits value, digit count, rest. -/
def fracPart : List Char → Option (ℕ × ℕ × List Char)
  | '.' :: r =>
      let (fs, r') := takeDigits r
      if fs = [] then none else some (digitsVal fs, fs.length, r')
  | t => some (0, 0, t)

/-- Exponent part of a number token. -/
def expPart : List Char → Option (ℤ × List Char)
  | [] => some (0, [])
  | c :: r =>
      if c = 'e' ∨ c = 'E' then
        let (sg, r1) : ℤ × List Char :=
          match r with
          | '+' :: rr => (1, rr)
          | '-' :: rr => (-1, rr)
          | _ => (1, r)
        let (es, r2) := takeDigits r1
        if es = [] then none else some (sg * Int.ofNat (digitsVal es), r2)
      else some (0, c :: r)

/-- Exact value of a complete JSON number token (`none` if `t` is not one):
with integer part `I`, fraction digits worth `F` over `10^fl`, and exponent
`ex`, the value is `±(I·10^fl + F)·10^(ex-fl)`, built with core rational
arithmetic.  `JSON.parse` additionally rounds this value to the nearest
binary64; the embedding keeps the exact rational. -/
def numValue (t : List Char) : Option ℚ := do
  let (sgn, t1) : ℤ × List Char :=
    match t with
    | '-' :: r => (-1, r)
    | _ => (1, t)
  match t1 with
  | [] => none
  | c :: _ =>
    if ¬ c.isDigit then none
    else
      let (ds, t2) := takeDigits t1
      if ds.head? = some '0' ∧ ds.length ≠ 1 then none
      else do
        let (fv, fl, t3) ← fracPart t2
        let (ex, t4) ← expPart t3
        if t4 = [] then
          let m : ℤ := sgn * Int.ofNat (digitsVal ds * 10 ^ fl + fv)
          let e : ℤ := ex - Int.ofNat fl
          some (if 0 ≤ e then mkRat (m * 10 ^ e.toNat) 1 else mkRat m (10 ^ (- e).toNat))
        else none

/-- Lex a number at the head of the input: take the maximal run of
number-token characters and validate it against the JSON number grammar.
This is observationally the strict-grammar lexer: a malformed maximal run
fails here exactly where the grammar lexer would stop with a syntax error. -/
def lexNum (cs : List Char) : Option (ℚ × List Char) :=
  let tok := cs.takeWhile isNumChar
  let rest := cs.dropWhile isNumChar
  match numValue tok with
  | some q => some (q, rest)
  | none => none

/-- What `parseStep` is currently parsing: a value, the tail of an array
(after `[`, elements up to and including `]`), or the tail of an object
(after `{`, members up to and including `}`). -/
inductive PMode where
  | val
  | elems
  | mems

/-- Result of one `parseStep` call. -/
inductive PRes where
  | v (x : Jval)
  | vs (xs : List Jval)
  | ms (xs : List (String × Jval))

/-- The recursive JSON grammar, structurally recursive on `fuel` so that the
kernel can evaluate it; `fuel` only bounds nesting and `parseJ` passes more
than any input can need. -/
def parseStep : ℕ → PMode → List Char → Option (PRes × List Char)
  | 0, _, _ => none
  | fuel + 1, .val, input =>
    match skipWs input with
    | [] => none
    | c :: rest =>
      if c = 'n' then
        match rest with
        | 'u' :: 'l' :: 'l' :: r => some (.v .null, r)
        | _ => none
      else if c = 't' then
        match rest with
        | 'r' :: 'u' :: 'e' :: r => some (.v (.jbool true), r)
        | _ => none
      else if c = 'f' then
        match rest with
        | 'a' :: 'l' :: 's' :: 'e' :: r => some (.v (.jbool false), r)
        | _ => none
      else if c = '"' then
        match parseStrBody (rest.length + 1) rest with
        | some (s, r) => some (.v (.str s.asString), r)
        | none => none
      else if c = '[' then
        match skipWs rest with
        | ']' :: r => some (.v (.arr []), r)
        | _ =>
          match parseStep fuel .elems rest with
          | some (.vs xs, r) => some (.v (.arr xs), r)
          | _ => none
      else if c = '{' then
        match skipWs rest with
        | '}' :: r => some (.v (.obj []), r)
        | _ =>
          match parseStep fuel .mems rest with
          | some (.ms xs, r) => some (.v (.obj xs), r)
          | _ => none
      else
        match lexNum (c :: rest) with
        | some (q, r) => some (.v (.num q), r)
        | none => none
  | fuel + 1, .elems, input =>
    match parseStep fuel .val input with
    | some (.v x, r) =>
      match skipWs r with
      | ',' :: r' =>
        match parseStep fuel .elems r' with
        | some (.vs xs, r'') => some (.vs (x :: xs), r'')
        | _ => none
      | ']' :: r' => some (.vs [x], r')
      | _ => none
    | _ => none
  | fuel + 1, .mems, input =>
    match skipWs input with
    | '"' :: rest =>
      match parseStrBody (rest.length + 1) rest with
      | some (k, r) =>
        match skipWs r with
        | ':' :: r' =>
          match parseStep fuel .val r' with
          | some (.v x, r'') =>
            match skipWs r'' with
            | ',' :: r3 =>
              match parseStep fuel .mems r3 with
              | some (.ms xs, r4) => some (.ms ((k.asString, x) :: xs), r4)
              | _ => none
            | '}' :: r3 => some (.ms [(k.asString, x)], r3)
            | _ => none
          | _ => none
        | _ => none
      | none => none
    | _ => none

/-- `JSON.parse`: parse one value and require only whitespace after it.
The fuel `2·|s| + 10` exceeds what any input can consume. -/
def parseJ (s : String) : Option Jval :=
  match parseStep (2 * s.length + 10) .val s.toList with
  | some (.v x, rest) => if skipWs rest = [] then some x else none
  | _ => none

/-! ## The `localStorage` effects (`src/App.js:17-30`) -/

/-- The load effect (`src/App.js:17-23`): read `localStorage.getItem('teaSessions')`
(`none` models `null`); if it is truthy (non-null and non-empty), the code
runs `setSessions(JSON.parse(saved))` with **no** `try`/`catch`, so a parse
failure propagates as an uncaught `SyntaxError`.  `ok (arr [])` is the
initial empty `sessions` state kept when nothing is parsed; note that a
successful parse installs whatever value was stored, validated nowhere. -/
def load (stored : Option String) : Except String Jval :=
  match stored with
  | none => .ok (.arr [])
  | some s =>
    if s = "" then .ok (.arr [])
    else
      match parseJ s with
      | some v => .ok v
      | none => .error "SyntaxError: JSON.parse"

/-- The persist effect (`src/App.js:25-30`): runs when `sessions` changes and
overwrites the stored value only when the log is non-empty; `storage` is the
prior content of the `teaSessions` key. -/
def persistEffect (ntos : ℚ → List Char) (sessions : List Session)
    (storage : Option String) : Option String :=
  if sessions.length > 0 then some (stringifySessions ntos sessions) else storage

/-- A save click followed by the persist effect: `handleSave`, then — only if
the `sessions` state actually changed, which is when the effect re-runs — the
conditional write of `src/App.js:25-30`. -/
def saveStep (ntos : ℚ → List Char) (now : ℚ) (iso : String) (st : AppState)
    (storage : Option String) : AppState × Option String :=
  let st' := handleSave now iso st
  (st', if st'.sessions = st.sessions then storage else persistEffect ntos st'.sessions storage)

/-! ## Decoding parsed session values

Field access on a parsed session object (`s.id`, `s.time`, …); with duplicate
keys the last occurrence wins, as for JavaScript object literals. -/

/-- Property lookup in a parsed object. -/
def jGet (k : String) (members : List (String × Jval)) : Option Jval :=
  (members.reverse.find? (fun m => m.1 = k)).map (·.2)

/-- Read one session's fields back from a parsed value. -/
def decodeSession (v : Jval) : Option Session :=
  match v with
  | .obj mems =>
    match jGet "id" mems, jGet "time" mems, jGet "timeMinutes" mems,
          jGet "date" mems, jGet "notes" mems with
    | some (.num i), some (.num t), some (.num tm), some (.str d), some (.str n) =>
        some { id := i, time := t, timeMinutes := tm, date := d, notes := n }
    | _, _, _, _, _ => none
  | _ => none

/-- Read a whole session log back from a parsed value. -/
def decodeLog : Jval → Option (List Session)
  | .arr l => l.mapM decodeSession
  | _ => none

/-- The `Jval` that parsing `stringifySessions` yields for one session. -/
def encodeSession (s : Session) : Jval :=
  .obj [("id", .num s.id), ("time", .num s.time), ("timeMinutes", .num s.timeMinutes),
        ("date", .str s.date), ("notes", .str s.notes)]

/-- The `Jval` that parsing `stringifySessions` yields for a log. -/
def encodeLog (sessions : List Session) : Jval :=
  .arr (sessions.map encodeSession)

/-- The environment contract for the host's number printing `ntos` at a value
`q`: the printed token consists of number characters and is a JSON numeral
whose exact value is `q`.  (ECMAScript guarantees this round-trip for every
binary64 value; the exactness restriction is where the rational model meets
binary64.) -/
def GoodNum (ntos : ℚ → List Char) (q : ℚ) : Prop :=
  (ntos q).all isNumChar = true ∧ numValue (ntos q) = some q

instance (ntos : ℚ → List Char) (q : ℚ) : Decidable (GoodNum ntos q) :=
  inferInstanceAs (Decidable (_ ∧ _))

/-- A concrete number printer satisfying `GoodNum` on non-negative integral
values; witnesses instantiate the environment parameter `ntos` with it. -/
def intNtos (q : ℚ) : List Char := natToDigits (q.num.toNat + 1) q.num.toNat

/-! ## Observations of the CSV text

These definitions are the vocabulary the CSV claims are stated in: splitting
exported text into lines and parsing one data line into its double-quoted
fields. -/

/-- Split a character list at newline characters (what a consumer of the CSV
file sees as its lines). -/
def splitNL (cs : List Char) : List (List Char) :=
  cs.foldr
    (fun c acc =>
      match acc with
      | [] => [[c]]
      | a :: as => if c = '\n' then [] :: a :: as else (c :: a) :: as)
    [[]]

/-- Parse a CSV line of the shape `"f1","f2",…,"fn"` into its quote-free
fields; `none` if the line is not of that shape.  `fuel` bounds the number of
fields (`parseCSVLine` passes enough). -/
def parseCSVFields : ℕ → List Char → Option (List (List Char))
  | 0, _ => none
  | fuel + 1, cs =>
    match cs with
    | '"' :: rest =>
      let content := rest.takeWhile (fun x => x != '"')
      match rest.dropWhile (fun x => x != '"') with
      | '"' :: [] => some [content]
      | '"' :: ',' :: rest2 =>
        match parseCSVFields fuel rest2 with
        | some fs => some (content :: fs)
        | none => none
      | _ => none
    | _ => none

/-- Parse a whole CSV data line into its double-quoted fields. -/
def parseCSVLine (cs : List Char) : Option (List (List Char)) :=
  parseCSVFields (cs.length + 1) cs

/-- The character shape of one exported CSV data row (the `toList` image of
`"d","t","n"` built by `src/App.js:127`). -/
def csvRowChars (dateCell timeCell notesCell : List Char) : List Char :=
  '"' :: dateCell ++ '"' :: ',' :: '"' :: timeCell ++ '"' :: ',' :: '"' ::
    notesCell ++ ['"']

/-! ## Helper lemmas -/

theorem toList_append (s t : String) : (s ++ t).toList = s.toList ++ t.toList :=
  String.data_append s t

theorem data_asString (l : List Char) : l.asString.data = l := rfl

theorem digitChar_isDigit (n : ℕ) : (digitChar n).isDigit = true := by
  unfold digitChar
  have h : n % 10 < 10 := Nat.mod_lt _ (by norm_num)
  generalize n % 10 = m at h ⊢
  interval_cases m <;> decide

theorem natToDigits_all_digits :
    ∀ fuel n : ℕ, ∀ c ∈ natToDigits fuel n, c.isDigit = true := by
  intro fuel
  induction fuel with
  | zero => intro n c h; simp [natToDigits] at h
  | succ f ih =>
    intro n c h
    unfold natToDigits at h
    split at h
    · simp at h; subst h; exact digitChar_isDigit n
    · rcases List.mem_append.mp h with h | h
      · exact ih _ _ h
      · simp at h; subst h; exact digitChar_isDigit _

theorem natToString_all_digits (n : ℕ) :
    ∀ c ∈ (natToString n).toList, c.isDigit = true := by
  intro c hc
  rw [natToString, List.toList_asString] at hc
  exact natToDigits_all_digits _ _ _ hc

theorem natToDigits_lt_ten (fuel n : ℕ) (h : n < 10) :
    natToDigits (fuel + 1) n = [digitChar n] := by
  simp [natToDigits, h]

theorem pad2_toList_lt_ten (n : ℕ) (h : n < 10) :
    (pad2 n).toList = ['0', digitChar n] := by
  simp [pad2, padStart2, natToString, natToDigits_lt_ten n n h, toList_append,
    data_asString, String.toList]

theorem pad2_toList_ge_ten (n : ℕ) (h1 : 10 ≤ n) (h2 : n < 100) :
    (pad2 n).toList = [digitChar (n / 10), digitChar (n % 10)] := by
  have hnot : ¬ n < 10 := by omega
  have hd : natToDigits (n + 1) n = [digitChar (n / 10), digitChar (n % 10)] := by
    rw [show natToDigits (n + 1) n = natToDigits n (n / 10) ++ [digitChar (n % 10)] by
      simp [natToDigits, hnot]]
    obtain ⟨f, rfl⟩ : ∃ f, n = f + 1 := ⟨n - 1, by omega⟩
    rw [natToDigits_lt_ten f ((f + 1) / 10) (by omega)]
    rfl
  simp [pad2, padStart2, natToString, hd, toList_append, data_asString, String.toList]

theorem pad2_two_digits (n : ℕ) (h : n < 100) :
    ∃ b c : Char, b.isDigit = true ∧ c.isDigit = true ∧ (pad2 n).toList = [b, c] := by
  by_cases h10 : n < 10
  · exact ⟨'0', digitChar n, by decide, digitChar_isDigit n, pad2_toList_lt_ten n h10⟩
  · exact ⟨digitChar (n / 10), digitChar (n % 10), digitChar_isDigit _, digitChar_isDigit _,
      pad2_toList_ge_ten n (by omega) h⟩

theorem pad2_length (n : ℕ) (h : n < 100) : (pad2 n).length = 2 := by
  obtain ⟨b, c, _, _, hbc⟩ := pad2_two_digits n h
  calc (pad2 n).length = (pad2 n).toList.length := rfl
    _ = 2 := by rw [hbc]; rfl

theorem jsOrEmpty_eq (s : String) : jsOrEmpty s = s := by
  unfold jsOrEmpty
  split
  · rename_i h; exact h.symm
  · rfl

/-! ## Lemmas about the CSV text -/

theorem exportToCSV_rows (fmtDate : String → String) (sessions : List Session) :
    exportToCSV fmtDate sessions =
      joinWith "\n" ("Date,Time (minutes),Notes" ::
        sessions.map (fun s =>
          "\"" ++ fmtDate s.date ++ "\",\"" ++ toFixed2 s.timeMinutes ++ "\",\"" ++
            s.notes ++ "\"")) := by
  simp only [exportToCSV]
  congr 1
  congr 1
  rw [List.map_map]
  apply List.map_congr_left
  intro s _
  apply String.toList_inj.mp
  simp [csvCells, jsOrEmpty_eq, joinWith, toList_append, List.append_assoc]

theorem rowStr_toList (d t n : String) :
    ("\"" ++ d ++ "\",\"" ++ t ++ "\",\"" ++ n ++ "\"").toList =
      csvRowChars d.toList t.toList n.toList := by
  simp [csvRowChars, toList_append, List.append_assoc,
    show ("\"" : String).toList = ['"'] from rfl,
    show ("\",\"" : String).toList = ['"', ',', '"'] from rfl]

theorem pad2_all_digits (n : ℕ) : ∀ ch ∈ (pad2 n).toList, ch.isDigit = true := by
  intro ch h
  rw [pad2, padStart2, toList_append] at h
  rcases List.mem_append.mp h with h | h
  · rw [List.toList_asString] at h
    rw [List.eq_of_mem_replicate h]
    decide
  · exact natToString_all_digits _ _ h

theorem toFixed2_chars (q : ℚ) :
    ∀ ch ∈ (toFixed2 q).toList, ch.isDigit = true ∨ ch = '.' ∨ ch = '-' := by
  intro ch hch
  rw [show toFixed2 q = (if q < 0 then "-" else "") ++
      natToString ((⌊|q| * 100 + 1/2⌋).toNat / 100) ++ "." ++
      pad2 ((⌊|q| * 100 + 1/2⌋).toNat % 100) from rfl,
    toList_append, toList_append, toList_append] at hch
  rcases List.mem_append.mp hch with h | h
  · rcases List.mem_append.mp h with h | h
    · rcases List.mem_append.mp h with h | h
      · split at h
        · simp at h; subst h; right; right; rfl
        · simp at h
      · left; exact natToString_all_digits _ _ h
    · simp [show ("." : String).toList = ['.'] from rfl] at h
      subst h; right; left; rfl
  · left; exact pad2_all_digits _ _ h

theorem toFixed2_no_quote (q : ℚ) : '"' ∉ (toFixed2 q).toList := by
  intro h
  rcases toFixed2_chars q _ h with h1 | h1 | h1 <;> exact absurd h1 (by decide)

theorem toFixed2_no_newline (q : ℚ) : '\n' ∉ (toFixed2 q).toList := by
  intro h
  rcases toFixed2_chars q _ h with h1 | h1 | h1 <;> exact absurd h1 (by decide)

theorem splitNL_cons (c : Char) (cs : List Char) :
    splitNL (c :: cs) =
      match splitNL cs with
      | [] => [[c]]
      | a :: as => if c = '\n' then [] :: a :: as else (c :: a) :: as := rfl

theorem splitNL_ne_nil (cs : List Char) : splitNL cs ≠ [] := by
  induction cs with
  | nil => simp [splitNL]
  | cons c cs ih =>
    rw [splitNL_cons]
    rcases h : splitNL cs with _ | ⟨a, as⟩
    · exact absurd h ih
    · dsimp only
      split <;> simp

theorem splitNL_no_nl (l : List Char) (h : '\n' ∉ l) : splitNL l = [l] := by
  induction l with
  | nil => rfl
  | cons c cs ih =>
    have hc : c ≠ '\n' := fun hrfl => h (hrfl ▸ List.mem_cons_self c cs)
    have hcs : '\n' ∉ cs := fun hm => h (List.mem_cons_of_mem _ hm)
    rw [splitNL_cons, ih hcs]
    simp [hc]

theorem splitNL_append (l rest : List Char) (h : '\n' ∉ l) :
    splitNL (l ++ '\n' :: rest) = l :: splitNL rest := by
  induction l with
  | nil =>
    rw [List.nil_append, splitNL_cons]
    rcases hr : splitNL rest with _ | ⟨a, as⟩
    · exact absurd hr (splitNL_ne_nil rest)
    · simp
  | cons c cs ih =>
    have hc : c ≠ '\n' := fun hrfl => h (hrfl ▸ List.mem_cons_self c cs)
    have hcs : '\n' ∉ cs := fun hm => h (List.mem_cons_of_mem _ hm)
    rw [List.cons_append, splitNL_cons, ih hcs]
    simp [hc]

theorem splitNL_joinWith : ∀ lines : List String, lines ≠ [] →
    (∀ l ∈ lines, '\n' ∉ l.toList) →
    splitNL (joinWith "\n" lines).toList = lines.map String.toList := by
  intro lines
  induction lines with
  | nil => intro h _; exact absurd rfl h
  | cons x xs ih =>
    intro _ h
    cases xs with
    | nil => exact splitNL_no_nl _ (h x (by simp))
    | cons y ys =>
      rw [show joinWith "\n" (x :: y :: ys) = x ++ "\n" ++ joinWith "\n" (y :: ys) from rfl,
        toList_append, toList_append,
        show ("\n" : String).toList = ['\n'] from rfl,
        List.append_assoc, List.singleton_append,
        splitNL_append _ _ (h x (by simp)),
        ih (by simp) (fun l hl => h l (List.mem_cons_of_mem _ hl))]
      rfl

theorem takeWhile_append_all {p : Char → Bool} : ∀ (t rest : List Char),
    (∀ c ∈ t, p c = true) → (∀ c, rest.head? = some c → p c = false) →
    (t ++ rest).takeWhile p = t ∧ (t ++ rest).dropWhile p = rest := by
  intro t
  induction t with
  | nil =>
    intro rest _ h2
    cases rest with
    | nil => simp
    | cons r rs => simp [List.takeWhile_cons, List.dropWhile_cons, h2 r rfl]
  | cons c cs ih =>
    intro rest h1 h2
    have hc : p c = true := h1 c (by simp)
    have hrec := ih rest (fun x hx => h1 x (by simp [hx])) h2
    simp [List.takeWhile_cons, List.dropWhile_cons, hc, hrec.1, hrec.2]

theorem csvRowChars_mem (d t n : List Char) (ch : Char) (h : ch ∈ csvRowChars d t n) :
    ch ∈ d ∨ ch ∈ t ∨ ch ∈ n ∨ ch = '"' ∨ ch = ',' := by
  simp only [csvRowChars, List.mem_cons, List.mem_append, List.mem_singleton] at h
  tauto

theorem csvRowChars_no_nl (d t n : List Char) (hd : '\n' ∉ d) (ht : '\n' ∉ t)
    (hn : '\n' ∉ n) : '\n' ∉ csvRowChars d t n := by
  intro h
  rcases csvRowChars_mem d t n _ h with h | h | h | h | h
  · exact hd h
  · exact ht h
  · exact hn h
  · exact absurd h (by decide)
  · exact absurd h (by decide)

theorem parseCSVFields_row (fuel : ℕ) (a b c : List Char)
    (ha : '"' ∉ a) (hb : '"' ∉ b) (hc : '"' ∉ c) :
    parseCSVFields (fuel + 3) (csvRowChars a b c) = some [a, b, c] := by
  have key : ∀ (x rest : List Char), '"' ∉ x →
      (x ++ '"' :: rest).takeWhile (fun ch => ch != '"') = x ∧
      (x ++ '"' :: rest).dropWhile (fun ch => ch != '"') = '"' :: rest := by
    intro x rest hx
    apply takeWhile_append_all
    · intro ch hch
      simp only [bne_iff_ne, ne_eq, decide_eq_true_eq]
      exact fun heq => hx (heq ▸ hch)
    · intro ch hch
      simp only [List.head?_cons, Option.some.injEq] at hch
      subst hch
      simp
  obtain ⟨ta, da⟩ := key a (',' :: '"' :: (b ++ '"' :: ',' :: '"' :: (c ++ ['"']))) ha
  obtain ⟨tb, db⟩ := key b (',' :: '"' :: (c ++ ['"'])) hb
  obtain ⟨tc, dc⟩ := key c [] hc
  rw [show fuel + 3 = fuel + 2 + 1 from rfl]
  simp [csvRowChars, parseCSVFields, ta, da, tb, db, tc, dc]

theorem parseCSVLine_row (a b c : List Char) (ha : '"' ∉ a) (hb : '"' ∉ b)
    (hc : '"' ∉ c) : parseCSVLine (csvRowChars a b c) = some [a, b, c] := by
  obtain ⟨f, hf⟩ : ∃ f, (csvRowChars a b c).length + 1 = f + 3 :=
    ⟨(csvRowChars a b c).length - 2, by
      simp only [csvRowChars, List.length_append, List.length_cons, List.length_singleton]
      omega⟩
  rw [parseCSVLine, hf, parseCSVFields_row f a b c ha hb hc]

/-! ## Lemmas about the JSON codec -/

theorem isJsonWs_of_isNumChar {c : Char} (h : isNumChar c = true) : isJsonWs c = false := by
  cases hws : isJsonWs c
  · rfl
  · exfalso
    simp only [isJsonWs, Bool.or_eq_true, decide_eq_true_eq] at hws
    rcases hws with ((rfl | rfl) | rfl) | rfl <;> exact absurd h (by decide)

theorem skipWs_cons_of_not_ws (c : Char) (cs : List Char) (h : isJsonWs c = false) :
    skipWs (c :: cs) = c :: cs := by
  simp [skipWs, List.dropWhile_cons, h]

theorem lexNum_token (t rest : List Char) (q : ℚ)
    (hall : ∀ c ∈ t, isNumChar c = true)
    (hrest : ∀ c, rest.head? = some c → isNumChar c = false)
    (hval : numValue t = some q) :
    lexNum (t ++ rest) = some (q, rest) := by
  obtain ⟨ht, hd⟩ := takeWhile_append_all t rest hall hrest
  simp [lexNum, ht, hd, hval]

theorem hexVal_hexDigitChar (n : ℕ) (h : n < 16) : hexVal (hexDigitChar n) = some n := by
  interval_cases n <;> decide

theorem escapeChar_length_pos (c : Char) : 1 ≤ (escapeChar c).length := by
  unfold escapeChar
  split_ifs <;> simp

theorem length_le_flatMap_escape (s : List Char) :
    s.length ≤ (s.flatMap escapeChar).length := by
  induction s with
  | nil => simp
  | cons c cs ih =>
    rw [List.flatMap_cons, List.length_append]
    have := escapeChar_length_pos c
    simp only [List.length_cons]
    omega

theorem parseStrBody_quote (fuel : ℕ) (tail : List Char) :
    parseStrBody (fuel + 1) ('"' :: tail) = some ([], tail) := by
  simp [parseStrBody]

theorem parseStrBody_esc (fuel : ℕ) (e uc : Char) (tail : List Char)
    (he : e ≠ 'u') (hu : unescapeChar e = some uc) :
    parseStrBody (fuel + 1) ('\\' :: e :: tail) =
      match parseStrBody fuel tail with
      | some (s, r) => some (uc :: s, r)
      | none => none := by
  simp [parseStrBody, decodeEscape, he, hu]

theorem parseStrBody_u (fuel : ℕ) (n : ℕ) (h3v h4v : Char) (tail : List Char)
    (hh3 : hexVal h3v = some (n / 16)) (hh4 : hexVal h4v = some (n % 16)) (hn : n < 32) :
    parseStrBody (fuel + 1) ('\\' :: 'u' :: '0' :: '0' :: h3v :: h4v :: tail) =
      match parseStrBody fuel tail with
      | some (s, r) => some (Char.ofNat n :: s, r)
      | none => none := by
  have h0 : hexVal '0' = some 0 := by decide
  have e1 : 0 * 4096 + 0 * 256 + n / 16 * 16 + n % 16 = n := by omega
  have e2 : n / 16 * 16 + n % 16 = n := by omega
  have hhex : hex4 '0' '0' h3v h4v = some n := by
    simp [hex4, h0, hh3, hh4, e1, e2]
  have hs1 : ¬ (55296 ≤ n ∧ n ≤ 56319) := by omega
  have hs2 : ¬ (56320 ≤ n ∧ n ≤ 57343) := by omega
  simp [parseStrBody, decodeEscape, hhex, hs1, hs2]

theorem parseStrBody_plain (fuel : ℕ) (c : Char) (tail : List Char)
    (h1 : c ≠ '"') (h2 : c ≠ '\\') (h3 : ¬ c.toNat < 32) :
    parseStrBody (fuel + 1) (c :: tail) =
      match parseStrBody fuel tail with
      | some (s, r) => some (c :: s, r)
      | none => none := by
  simp [parseStrBody, h1, h2, h3]

theorem parseStrBody_rt : ∀ (s : List Char) (fuel : ℕ) (rest : List Char),
    s.length < fuel →
    parseStrBody fuel (s.flatMap escapeChar ++ '"' :: rest) = some (s, rest) := by
  intro s
  induction s with
  | nil =>
    intro fuel rest hf
    obtain ⟨g, rfl⟩ : ∃ g, fuel = g + 1 := ⟨fuel - 1, by omega⟩
    simpa using parseStrBody_quote g rest
  | cons c cs ih =>
    intro fuel rest hf
    obtain ⟨g, rfl⟩ : ∃ g, fuel = g + 1 := ⟨fuel - 1, by omega⟩
    have hg : cs.length < g := by
      simp only [List.length_cons] at hf
      omega
    rw [List.flatMap_cons, List.append_assoc]
    by_cases h1 : c = '"'
    · subst h1
      rw [show escapeChar '"' = ['\\', '"'] from rfl,
        show (['\\', '"'] : List Char) ++ (cs.flatMap escapeChar ++ '"' :: rest) =
          '\\' :: '"' :: (cs.flatMap escapeChar ++ '"' :: rest) from rfl,
        parseStrBody_esc g '"' '"' _ (by decide) (by decide), ih g rest hg]
    by_cases h2 : c = '\\'
    · subst h2
      rw [show escapeChar '\\' = ['\\', '\\'] from rfl,
        show (['\\', '\\'] : List Char) ++ (cs.flatMap escapeChar ++ '"' :: rest) =
          '\\' :: '\\' :: (cs.flatMap escapeChar ++ '"' :: rest) from rfl,
        parseStrBody_esc g '\\' '\\' _ (by decide) (by decide), ih g rest hg]
    by_cases h3 : c = Char.ofNat 8
    · subst h3
      rw [show escapeChar (Char.ofNat 8) = ['\\', 'b'] from rfl,
        show (['\\', 'b'] : List Char) ++ (cs.flatMap escapeChar ++ '"' :: rest) =
          '\\' :: 'b' :: (cs.flatMap escapeChar ++ '"' :: rest) from rfl,
        parseStrBody_esc g 'b' (Char.ofNat 8) _ (by decide) (by decide), ih g rest hg]
    by_cases h4 : c = Char.ofNat 12
    · subst h4
      rw [show escapeChar (Char.ofNat 12) = ['\\', 'f'] from rfl,
        show (['\\', 'f'] : List Char) ++ (cs.flatMap escapeChar ++ '"' :: rest) =
          '\\' :: 'f' :: (cs.flatMap escapeChar ++ '"' :: rest) from rfl,
        parseStrBody_esc g 'f' (Char.ofNat 12) _ (by decide) (by decide), ih g rest hg]
    by_cases h5 : c = '\n'
    · subst h5
      rw [show escapeChar '\n' = ['\\', 'n'] from rfl,
        show (['\\', 'n'] : List Char) ++ (cs.flatMap escapeChar ++ '"' :: rest) =
          '\\' :: 'n' :: (cs.flatMap escapeChar ++ '"' :: rest) from rfl,
        parseStrBody_esc g 'n' '\n' _ (by decide) (by decide), ih g rest hg]
    by_cases h6 : c = Char.ofNat 13
    · subst h6
      rw [show escapeChar (Char.ofNat 13) = ['\\', 'r'] from rfl,
        show (['\\', 'r'] : List Char) ++ (cs.flatMap escapeChar ++ '"' :: rest) =
          '\\' :: 'r' :: (cs.flatMap escapeChar ++ '"' :: rest) from rfl,
        parseStrBody_esc g 'r' (Char.ofNat 13) _ (by decide) (by decide), ih g rest hg]
    by_cases h7 : c = '\t'
    · subst h7
      rw [show escapeChar '\t' = ['\\', 't'] from rfl,
        show (['\\', 't'] : List Char) ++ (cs.flatMap escapeChar ++ '"' :: rest) =
          '\\' :: 't' :: (cs.flatMap escapeChar ++ '"' :: rest) from rfl,
        parseStrBody_esc g 't' '\t' _ (by decide) (by decide), ih g rest hg]
    by_cases h8 : c.toNat < 32
    · have hesc : escapeChar c = ['\\', 'u', '0', '0', hexDigitChar (c.toNat / 16),
          hexDigitChar (c.toNat % 16)] := by
        simp [escapeChar, h1, h2, h3, h4, h5, h6, h7, h8]
      rw [hesc,
        show (['\\', 'u', '0', '0', hexDigitChar (c.toNat / 16), hexDigitChar (c.toNat % 16)] :
            List Char) ++ (cs.flatMap escapeChar ++ '"' :: rest) =
          '\\' :: 'u' :: '0' :: '0' :: hexDigitChar (c.toNat / 16) ::
            hexDigitChar (c.toNat % 16) :: (cs.flatMap escapeChar ++ '"' :: rest) from rfl,
        parseStrBody_u g c.toNat _ _ _ (hexVal_hexDigitChar _ (by omega))
          (hexVal_hexDigitChar _ (by omega)) h8,
        ih g rest hg, Char.ofNat_toNat]
    · have hesc : escapeChar c = [c] := by
        simp [escapeChar, h1, h2, h3, h4, h5, h6, h7, h8]
      rw [hesc, List.singleton_append, parseStrBody_plain g c _ h1 h2 h8, ih g rest hg]

theorem parseStrBody_rt_call (s rest : List Char) :
    parseStrBody ((s.flatMap escapeChar ++ '"' :: rest).length + 1)
      (s.flatMap escapeChar ++ '"' :: rest) = some (s, rest) := by
  apply parseStrBody_rt
  have h1 := length_le_flatMap_escape s
  have h2 : (s.flatMap escapeChar ++ '"' :: rest).length =
      (s.flatMap escapeChar).length + rest.length + 1 := by
    simp [List.length_append]
    omega
  omega

theorem parseStep_val_num (fuel : ℕ) (hfuel : 1 ≤ fuel) (ntos : ℚ → List Char) (q : ℚ)
    (hq : GoodNum ntos q) (rest : List Char)
    (hrest : ∀ c, rest.head? = some c → isNumChar c = false) :
    parseStep fuel .val (ntos q ++ rest) = some (.v (.num q), rest) := by
  obtain ⟨g, rfl⟩ : ∃ g, fuel = g + 1 := ⟨fuel - 1, by omega⟩
  obtain ⟨hall, hval⟩ := hq
  rw [List.all_eq_true] at hall
  obtain ⟨c0, t, hct⟩ : ∃ c0 t, ntos q = c0 :: t := by
    cases hn : ntos q with
    | nil =>
      rw [hn] at hval
      rw [show numValue ([] : List Char) = none from rfl] at hval
      exact Option.noConfusion hval
    | cons a l => exact ⟨a, l, rfl⟩
  rw [hct] at hall hval
  have hc0 : isNumChar c0 = true := hall c0 (List.mem_cons_self _ _)
  rw [hct, List.cons_append]
  have hskip : skipWs (c0 :: (t ++ rest)) = c0 :: (t ++ rest) :=
    skipWs_cons_of_not_ws _ _ (isJsonWs_of_isNumChar hc0)
  have hlex : lexNum (c0 :: (t ++ rest)) = some (q, rest) :=
    lexNum_token (c0 :: t) rest q hall hrest hval
  have hn1 : c0 ≠ 'n' := by rintro rfl; exact absurd hc0 (by decide)
  have hn2 : c0 ≠ 't' := by rintro rfl; exact absurd hc0 (by decide)
  have hn3 : c0 ≠ 'f' := by rintro rfl; exact absurd hc0 (by decide)
  have hn4 : c0 ≠ '"' := by rintro rfl; exact absurd hc0 (by decide)
  have hn5 : c0 ≠ '[' := by rintro rfl; exact absurd hc0 (by decide)
  have hn6 : c0 ≠ '{' := by rintro rfl; exact absurd hc0 (by decide)
  simp only [parseStep, hskip]
  rw [if_neg hn1, if_neg hn2, if_neg hn3, if_neg hn4, if_neg hn5, if_neg hn6, hlex]


theorem parseStep_val_str (fuel : ℕ) (hfuel : 1 ≤ fuel) (sl : List Char) (rest : List Char) :
    parseStep fuel .val (quoteChars sl ++ rest) = some (.v (.str sl.asString), rest) := by
  obtain ⟨g, rfl⟩ : ∃ g, fuel = g + 1 := ⟨fuel - 1, by omega⟩
  have hshape : quoteChars sl ++ rest = '"' :: (sl.flatMap escapeChar ++ '"' :: rest) := by
    simp [quoteChars, List.append_assoc]
  rw [hshape]
  have hskip : skipWs ('"' :: (sl.flatMap escapeChar ++ '"' :: rest)) =
      '"' :: (sl.flatMap escapeChar ++ '"' :: rest) :=
    skipWs_cons_of_not_ws _ _ (by decide)
  have hq1 : ('"' : Char) ≠ 'n' := by decide
  have hq2 : ('"' : Char) ≠ 't' := by decide
  have hq3 : ('"' : Char) ≠ 'f' := by decide
  simp only [parseStep, hskip]
  rw [if_neg hq1, if_neg hq2, if_neg hq3, if_pos trivial, parseStrBody_rt_call sl rest]


theorem head_comma_not_num (l : List Char) (c : Char) (hc : (',' :: l).head? = some c) :
    isNumChar c = false := by
  simp only [List.head?_cons, Option.some.injEq] at hc
  subst hc
  decide

theorem parseStep_mems_last (fuel : ℕ) (hfuel : 1 ≤ fuel) (k : String)
    (tail rest : List Char) (v : Jval)
    (hv : parseStep (fuel - 1) .val tail = some (.v v, '}' :: rest)) :
    parseStep fuel .mems (quoteChars k.toList ++ ':' :: tail) = some (.ms [(k, v)], rest) := by
  obtain ⟨g, rfl⟩ : ∃ g, fuel = g + 1 := ⟨fuel - 1, by omega⟩
  simp only [Nat.add_sub_cancel] at hv
  have hshape : quoteChars k.toList ++ ':' :: tail =
      '"' :: (k.toList.flatMap escapeChar ++ '"' :: ':' :: tail) := by
    simp [quoteChars, List.append_assoc]
  rw [hshape]
  have hskip1 : skipWs ('"' :: (k.toList.flatMap escapeChar ++ '"' :: ':' :: tail)) =
      '"' :: (k.toList.flatMap escapeChar ++ '"' :: ':' :: tail) :=
    skipWs_cons_of_not_ws _ _ (by decide)
  have hskip2 : skipWs (':' :: tail) = ':' :: tail := skipWs_cons_of_not_ws _ _ (by decide)
  have hskip3 : skipWs ('}' :: rest) = '}' :: rest := skipWs_cons_of_not_ws _ _ (by decide)
  simp only [parseStep, hskip1]
  rw [parseStrBody_rt_call k.toList (':' :: tail)]
  simp only [hskip2]
  rw [hv]
  simp only [hskip3, String.asString_toList]

theorem parseStep_mems_more (fuel : ℕ) (hfuel : 1 ≤ fuel) (k : String)
    (tail rest2 r : List Char) (v : Jval) (ms : List (String × Jval))
    (hv : parseStep (fuel - 1) .val tail = some (.v v, ',' :: rest2))
    (hrec : parseStep (fuel - 1) .mems rest2 = some (.ms ms, r)) :
    parseStep fuel .mems (quoteChars k.toList ++ ':' :: tail) =
      some (.ms ((k, v) :: ms), r) := by
  obtain ⟨g, rfl⟩ : ∃ g, fuel = g + 1 := ⟨fuel - 1, by omega⟩
  simp only [Nat.add_sub_cancel] at hv hrec
  have hshape : quoteChars k.toList ++ ':' :: tail =
      '"' :: (k.toList.flatMap escapeChar ++ '"' :: ':' :: tail) := by
    simp [quoteChars, List.append_assoc]
  rw [hshape]
  have hskip1 : skipWs ('"' :: (k.toList.flatMap escapeChar ++ '"' :: ':' :: tail)) =
      '"' :: (k.toList.flatMap escapeChar ++ '"' :: ':' :: tail) :=
    skipWs_cons_of_not_ws _ _ (by decide)
  have hskip2 : skipWs (':' :: tail) = ':' :: tail := skipWs_cons_of_not_ws _ _ (by decide)
  have hskip3 : skipWs (',' :: rest2) = ',' :: rest2 := skipWs_cons_of_not_ws _ _ (by decide)
  simp only [parseStep, hskip1]
  rw [parseStrBody_rt_call k.toList (':' :: tail)]
  simp only [hskip2]
  rw [hv]
  simp only [hskip3]
  rw [hrec]
  simp only [String.asString_toList]

theorem parseStep_mems_session (ntos : ℚ → List Char) (s : Session) (g : ℕ) (hg : 6 ≤ g)
    (rest : List Char)
    (hid : GoodNum ntos s.id) (ht : GoodNum ntos s.time) (htm : GoodNum ntos s.timeMinutes) :
    parseStep g .mems
      (quoteChars "id".toList ++ ':' :: (ntos s.id ++ ',' ::
        (quoteChars "time".toList ++ ':' :: (ntos s.time ++ ',' ::
        (quoteChars "timeMinutes".toList ++ ':' :: (ntos s.timeMinutes ++ ',' ::
        (quoteChars "date".toList ++ ':' :: (quoteChars s.date.toList ++ ',' ::
        (quoteChars "notes".toList ++ ':' :: (quoteChars s.notes.toList ++ '}' :: rest)))))))))) =
      some (.ms [("id", .num s.id), ("time", .num s.time), ("timeMinutes", .num s.timeMinutes),
        ("date", .str s.date), ("notes", .str s.notes)], rest) := by
  apply parseStep_mems_more _ (by omega)
  · exact parseStep_val_num _ (by omega) ntos s.id ⟨hid.1, hid.2⟩ _ (head_comma_not_num _)
  · apply parseStep_mems_more _ (by omega)
    · exact parseStep_val_num _ (by omega) ntos s.time ⟨ht.1, ht.2⟩ _ (head_comma_not_num _)
    · apply parseStep_mems_more _ (by omega)
      · exact parseStep_val_num _ (by omega) ntos s.timeMinutes ⟨htm.1, htm.2⟩ _
          (head_comma_not_num _)
      · apply parseStep_mems_more _ (by omega)
        · have h := parseStep_val_str _ (by omega :
              1 ≤ g - 1 - 1 - 1 - 1) s.date.toList
            (',' :: (quoteChars "notes".toList ++ ':' :: (quoteChars s.notes.toList ++ '}' :: rest)))
          rw [String.asString_toList] at h
          exact h
        · apply parseStep_mems_last _ (by omega)
          have h := parseStep_val_str _ (by omega : 1 ≤ g - 1 - 1 - 1 - 1 - 1) s.notes.toList
            ('}' :: rest)
          rw [String.asString_toList] at h
          exact h


theorem skipWs_quote (cs : List Char) : skipWs ('"' :: cs) = '"' :: cs :=
  skipWs_cons_of_not_ws _ _ (by decide)

theorem skipWs_lbrace (cs : List Char) : skipWs ('{' :: cs) = '{' :: cs :=
  skipWs_cons_of_not_ws _ _ (by decide)

theorem skipWs_lbracket (cs : List Char) : skipWs ('[' :: cs) = '[' :: cs :=
  skipWs_cons_of_not_ws _ _ (by decide)

theorem skipWs_rbracket (cs : List Char) : skipWs (']' :: cs) = ']' :: cs :=
  skipWs_cons_of_not_ws _ _ (by decide)

theorem skipWs_comma (cs : List Char) : skipWs (',' :: cs) = ',' :: cs :=
  skipWs_cons_of_not_ws _ _ (by decide)

theorem quoteChars_id_cons (T : List Char) :
    quoteChars "id".toList ++ ':' :: T = '"' :: 'i' :: 'd' :: '"' :: ':' :: T := rfl

theorem parseStep_val_session (ntos : ℚ → List Char) (s : Session) (fuel : ℕ)
    (hfuel : 7 ≤ fuel) (rest : List Char)
    (hid : GoodNum ntos s.id) (ht : GoodNum ntos s.time) (htm : GoodNum ntos s.timeMinutes) :
    parseStep fuel .val (encodeSessionChars ntos s ++ rest) =
      some (.v (encodeSession s), rest) := by
  obtain ⟨g, rfl⟩ : ∃ g, fuel = g + 1 := ⟨fuel - 1, by omega⟩
  have hshape : encodeSessionChars ntos s ++ rest =
      '{' :: (quoteChars "id".toList ++ ':' :: (ntos s.id ++ ',' ::
        (quoteChars "time".toList ++ ':' :: (ntos s.time ++ ',' ::
        (quoteChars "timeMinutes".toList ++ ':' :: (ntos s.timeMinutes ++ ',' ::
        (quoteChars "date".toList ++ ':' :: (quoteChars s.date.toList ++ ',' ::
        (quoteChars "notes".toList ++ ':' :: (quoteChars s.notes.toList ++ '}' :: rest)))))))))) := by
    simp [encodeSessionChars, List.append_assoc]
  have hq1 : ('{' : Char) ≠ 'n' := by decide
  have hq2 : ('{' : Char) ≠ 't' := by decide
  have hq3 : ('{' : Char) ≠ 'f' := by decide
  have hq4 : ('{' : Char) ≠ '"' := by decide
  have hq5 : ('{' : Char) ≠ '[' := by decide
  have hmem := parseStep_mems_session ntos s g (by omega) rest hid ht htm
  rw [hshape]
  simp only [parseStep, skipWs_lbrace]
  rw [if_neg hq1, if_neg hq2, if_neg hq3, if_neg hq4, if_neg hq5, if_pos trivial]
  rw [hmem, quoteChars_id_cons, skipWs_quote]
  rfl


theorem parseStep_elems_sessions (ntos : ℚ → List Char) : ∀ (L : List Session) (g : ℕ)
    (rest : List Char), L ≠ [] →
    (∀ s ∈ L, GoodNum ntos s.id ∧ GoodNum ntos s.time ∧ GoodNum ntos s.timeMinutes) →
    8 + L.length ≤ g →
    parseStep g .elems (joinChars [','] (L.map (encodeSessionChars ntos)) ++ ']' :: rest) =
      some (.vs (L.map encodeSession), rest) := by
  intro L
  induction L with
  | nil => intro g rest h _ _; exact absurd rfl h
  | cons s L ih =>
    intro g rest _ hgood hfg
    obtain ⟨f, rfl⟩ : ∃ f, g = f + 1 := ⟨g - 1, by omega⟩
    obtain ⟨hid, ht, htm⟩ := hgood s (List.mem_cons_self _ _)
    cases L with
    | nil =>
      rw [show joinChars [','] ([s].map (encodeSessionChars ntos)) =
        encodeSessionChars ntos s from rfl]
      have hv := parseStep_val_session ntos s f (by omega) (']' :: rest) hid ht htm
      simp only [parseStep]
      rw [hv]
      simp only [skipWs_rbracket]
      rfl
    | cons s2 L2 =>
      have hshape : joinChars [','] ((s :: s2 :: L2).map (encodeSessionChars ntos)) ++
          ']' :: rest =
          encodeSessionChars ntos s ++ ',' ::
            (joinChars [','] ((s2 :: L2).map (encodeSessionChars ntos)) ++ ']' :: rest) := by
        simp [joinChars, List.append_assoc]
      rw [hshape]
      have hv := parseStep_val_session ntos s f (by omega)
        (',' :: (joinChars [','] ((s2 :: L2).map (encodeSessionChars ntos)) ++ ']' :: rest))
        hid ht htm
      have hrec := ih f rest (by simp)
        (fun x hx => hgood x (List.mem_cons_of_mem _ hx))
        (by simp only [List.length_cons] at hfg ⊢; omega)
      simp only [parseStep]
      rw [hv]
      simp only [skipWs_comma]
      rw [hrec]
      rfl

theorem length_le_joinChars_sessions (ntos : ℚ → List Char) : ∀ M : List Session,
    M.length ≤ (joinChars [','] (M.map (encodeSessionChars ntos))).length + 1 := by
  intro M
  induction M with
  | nil => simp [joinChars]
  | cons s M ih =>
    cases M with
    | nil =>
      simp [joinChars, encodeSessionChars]
    | cons s2 M2 =>
      have hjc : joinChars [','] ((s :: s2 :: M2).map (encodeSessionChars ntos)) =
          encodeSessionChars ntos s ++ [','] ++
            joinChars [','] ((s2 :: M2).map (encodeSessionChars ntos)) := by
        simp [joinChars]
      rw [hjc]
      simp only [List.length_append, List.length_cons] at ih ⊢
      omega

theorem parseJ_stringify (ntos : ℚ → List Char) (L : List Session) (hne : L ≠ [])
    (hgood : ∀ s ∈ L, GoodNum ntos s.id ∧ GoodNum ntos s.time ∧ GoodNum ntos s.timeMinutes) :
    parseJ (stringifySessions ntos L) = some (encodeLog L) := by
  obtain ⟨s0, L0, rfl⟩ : ∃ s0 L0, L = s0 :: L0 := by
    cases L with
    | nil => exact absurd rfl hne
    | cons a l => exact ⟨a, l, rfl⟩
  have hlen := length_le_joinChars_sessions ntos (s0 :: L0)
  unfold parseJ
  rw [show stringifySessions ntos (s0 :: L0) =
    (stringifyLogChars ntos (s0 :: L0)).asString from rfl]
  rw [List.length_asString, List.toList_asString]
  obtain ⟨f, hf⟩ : ∃ f, 2 * (stringifyLogChars ntos (s0 :: L0)).length + 10 = f + 1 :=
    ⟨2 * (stringifyLogChars ntos (s0 :: L0)).length + 9, rfl⟩
  rw [hf]
  have hflen : 8 + (s0 :: L0).length ≤ f := by
    have h2 : (stringifyLogChars ntos (s0 :: L0)).length =
        (joinChars [','] ((s0 :: L0).map (encodeSessionChars ntos))).length + 2 := by
      simp [stringifyLogChars, List.length_append]
    omega
  have helems := parseStep_elems_sessions ntos (s0 :: L0) f [] (by simp) hgood hflen
  have hq1 : ('[' : Char) ≠ 'n' := by decide
  have hq2 : ('[' : Char) ≠ 't' := by decide
  have hq3 : ('[' : Char) ≠ 'f' := by decide
  have hq4 : ('[' : Char) ≠ '"' := by decide
  rw [show stringifyLogChars ntos (s0 :: L0) =
    '[' :: (joinChars [','] ((s0 :: L0).map (encodeSessionChars ntos)) ++ [']']) from rfl]
  simp only [parseStep, skipWs_lbracket]
  rw [if_neg hq1, if_neg hq2, if_neg hq3, if_neg hq4, if_pos trivial]
  rw [helems]
  obtain ⟨T, hT⟩ : ∃ T, joinChars [','] ((s0 :: L0).map (encodeSessionChars ntos)) =
      '{' :: T := by
    cases L0 with
    | nil => exact ⟨_, rfl⟩
    | cons s1 L1 => exact ⟨_, rfl⟩
  rw [hT, List.cons_append, skipWs_lbrace]
  rfl

theorem decodeSession_encodeSession (s : Session) :
    decodeSession (encodeSession s) = some s := rfl

theorem decodeLog_encodeLog (L : List Session) : decodeLog (encodeLog L) = some L := by
  induction L with
  | nil => rfl
  | cons s L ih =>
    simp only [decodeLog, encodeLog, List.map_cons, List.mapM_cons] at ih ⊢
    rw [decodeSession_encodeSession]
    cases hm : (L.map encodeSession).mapM decodeSession with
    | none => rw [hm] at ih; simp at ih
    | some l =>
      rw [hm] at ih
      simp at ih
      simp [hm, ih]


/-! ## Claim C9: persistence round-trip -/

/-- C9: storing a non-empty session log (the exact `JSON.stringify` text
written under `teaSessions`) and loading it back recovers the log exactly:
the parse yields precisely the encoded log value, and reading the fields
`id`, `time`, `timeMinutes`, `date` and `notes` off the parsed objects gives
back every session unchanged.  The hypothesis on the environment parameter
`ntos` is the ECMAScript number-printing contract at the values in the log
(printing then re-parsing a number is exact). -/
theorem load_store_roundtrip (ntos : ℚ → List Char) (L : List Session)
    (hgood : ∀ s ∈ L, GoodNum ntos s.id ∧ GoodNum ntos s.time ∧ GoodNum ntos s.timeMinutes)
    (hne : L ≠ []) :
    load (some (stringifySessions ntos L)) = .ok (encodeLog L) ∧
    decodeLog (encodeLog L) = some L := by
  constructor
  · have hp := parseJ_stringify ntos L hne hgood
    have hne2 : stringifySessions ntos L ≠ "" := by
      intro h
      have h2 : (stringifySessions ntos L).toList = [] := by rw [h]; rfl
      rw [show stringifySessions ntos L = (stringifyLogChars ntos L).asString from rfl,
        List.toList_asString,
        show stringifyLogChars ntos L =
          '[' :: (joinChars [','] (L.map (encodeSessionChars ntos)) ++ [']']) from rfl] at h2
      exact List.noConfusion h2
    simp [load, hne2, hp]
  · exact decodeLog_encodeLog L

/-- Witness for `load_store_roundtrip`: a one-session log with integral
numeric fields, printed by `intNtos`. -/
theorem load_store_roundtrip_witness :
    (∀ s ∈ ([⟨5, 60000, 1, "2024-01-01", "green tea"⟩] : List Session),
      GoodNum intNtos s.id ∧ GoodNum intNtos s.time ∧ GoodNum intNtos s.timeMinutes) ∧
    ([⟨5, 60000, 1, "2024-01-01", "green tea"⟩] : List Session) ≠ [] ∧
    (load (some (stringifySessions intNtos [⟨5, 60000, 1, "2024-01-01", "green tea"⟩])) =
        .ok (encodeLog [⟨5, 60000, 1, "2024-01-01", "green tea"⟩]) ∧
      decodeLog (encodeLog [⟨5, 60000, 1, "2024-01-01", "green tea"⟩]) =
        some [⟨5, 60000, 1, "2024-01-01", "green tea"⟩]) :=
  ⟨by decide, by decide, load_store_roundtrip intNtos _ (by decide) (by decide)⟩


/-! ## Claim C8: timer display format -/

/-- C8: for every non-negative integer count of elapsed milliseconds,
`formatTime` renders `MM:SS.CC`, each component zero-padded to 2 digits:
the three components are bounded as minutes/seconds/hundredths, reconstruct
the input up to the truncated last digit of the milliseconds, and below the
100-minute mark the display is exactly 8 characters; 65 430 ms renders as
`01:05.43`. -/
theorem formatTime_spec :
    (∀ ms : ℕ, ∃ m s c : ℕ, s < 60 ∧ c < 100 ∧
      m * 60000 + s * 1000 + c * 10 + ms % 10 = ms ∧
      formatTime ms = pad2 m ++ ":" ++ pad2 s ++ "." ++ pad2 c) ∧
    (∀ ms : ℕ, ms < 6000000 → (formatTime ms).length = 8) ∧
    formatTime 65430 = "01:05.43" := by
  refine ⟨fun ms => ⟨ms / 1000 / 60, ms / 1000 % 60, ms % 1000 / 10,
      by omega, by omega, by omega, rfl⟩, fun ms h => ?_, by decide⟩
  show (pad2 (ms / 1000 / 60) ++ ":" ++ pad2 (ms / 1000 % 60) ++ "." ++
      pad2 (ms % 1000 / 10)).length = 8
  rw [String.length_append, String.length_append, String.length_append,
    String.length_append, pad2_length _ (by omega), pad2_length _ (by omega),
    pad2_length _ (by omega)]
  decide

/-- Witness for `formatTime_spec`: the sub-100-minute length clause at a
concrete input. -/
theorem formatTime_spec_witness :
    5999999 < 6000000 ∧ (formatTime 5999999).length = 8 :=
  ⟨by decide, formatTime_spec.2.1 5999999 (by decide)⟩

/-! ## Claim C7: recent sessions -/

/-- C7: `recent n` on a log of size `k` has exactly `min n k` entries and its
`i`-th entry is the `(k - 1 - i)`-th entry of the log: the suffix of the log
in reverse chronological order.  The log itself is a value the function only
reads (the code copies with `slice` before the in-place `reverse`), so it is
never mutated. -/
theorem recent_spec (n : ℕ) (log : List Session) :
    (recent n log).length = min n log.length ∧
    ∀ i : ℕ, i < min n log.length →
      (recent n log)[i]? = log[log.length - 1 - i]? := by
  constructor
  · simp only [recent, List.length_reverse, List.length_drop]
    omega
  · intro i hi
    unfold recent
    rw [List.getElem?_reverse (by simp only [List.length_drop]; omega),
      List.getElem?_drop]
    congr 1
    simp only [List.length_drop]
    omega

/-- Witness for `recent_spec` on a three-session log with `n = 2`. -/
theorem recent_spec_witness :
    1 < min 2 ([⟨1, 1, 1, "a", "x"⟩, ⟨2, 2, 2, "b", "y"⟩, ⟨3, 3, 3, "c", "z"⟩] :
        List Session).length ∧
    (recent 2 [⟨1, 1, 1, "a", "x"⟩, ⟨2, 2, 2, "b", "y"⟩, ⟨3, 3, 3, "c", "z"⟩])[1]? =
      ([⟨1, 1, 1, "a", "x"⟩, ⟨2, 2, 2, "b", "y"⟩, ⟨3, 3, 3, "c", "z"⟩] :
        List Session)[([⟨1, 1, 1, "a", "x"⟩, ⟨2, 2, 2, "b", "y"⟩, ⟨3, 3, 3, "c", "z"⟩] :
        List Session).length - 1 - 1]? :=
  ⟨by decide, (recent_spec 2 _).2 1 (by decide)⟩

/-! ## Claim C4: saving at zero elapsed time -/

/-- C4: with `elapsedMs = 0` a save click is a silent no-op: `handleSave`
leaves the whole state unchanged — in particular the session log — and since
the `sessions` state does not change, the persistence effect does not re-run,
so the stored value is untouched.  No exception path exists (the model is a
total function). -/
theorem handleSave_zero_noop (ntos : ℚ → List Char) (now : ℚ) (iso : String)
    (st : AppState) (storage : Option String) (h : st.time = 0) :
    saveStep ntos now iso st storage = (st, storage) := by
  simp [saveStep, handleSave, h]

/-- Witness for `handleSave_zero_noop` at a concrete idle state. -/
theorem handleSave_zero_noop_witness :
    (⟨0, false, false, "", []⟩ : AppState).time = 0 ∧
    saveStep (fun _ => []) 0 "" ⟨0, false, false, "", []⟩ none =
      (⟨0, false, false, "", []⟩, none) :=
  ⟨rfl, handleSave_zero_noop _ 0 "" _ none rfl⟩

/-! ## Claim C5: the stored-minutes invariant -/

/-- C5: the session literal built by `handleSave` satisfies
`timeMinutes = time / 60000` exactly (the rational model makes the division
exact, which implies equality after display rounding), and `handleSave`
preserves the invariant across the whole log: every session ever appended
satisfies it. -/
theorem session_minutes_invariant :
    (∀ (now : ℚ) (iso : String) (st : AppState),
      (mkSession now iso st).timeMinutes = (mkSession now iso st).time / 60000) ∧
    (∀ (now : ℚ) (iso : String) (st : AppState),
      (∀ s ∈ st.sessions, s.timeMinutes = s.time / 60000) →
      ∀ s ∈ (handleSave now iso st).sessions, s.timeMinutes = s.time / 60000) := by
  refine ⟨fun _ _ _ => rfl, fun now iso st hinv s hs => ?_⟩
  unfold handleSave at hs
  split at hs
  · simp [handleReset] at hs
    rcases hs with hs | hs
    · exact hinv s hs
    · subst hs; rfl
  · exact hinv s hs

/-- Witness for `session_minutes_invariant`: saving 65 430 ms on an empty
log. -/
theorem session_minutes_invariant_witness :
    (∀ s ∈ (⟨65430, false, true, "Green tea", []⟩ : AppState).sessions,
      s.timeMinutes = s.time / 60000) ∧
    ∀ s ∈ (handleSave 1 "d" ⟨65430, false, true, "Green tea", []⟩).sessions,
      s.timeMinutes = s.time / 60000 :=
  ⟨by simp, session_minutes_invariant.2 1 "d" ⟨65430, false, true, "Green tea", []⟩ (by simp)⟩

/-! ## Claim C6: persistence only for non-empty logs -/

/-- C6: the persist effect leaves the stored value untouched when the
in-memory log is empty, and a save at positive elapsed time persists the full
appended log. -/
theorem persist_only_nonempty (ntos : ℚ → List Char) :
    (∀ storage, persistEffect ntos [] storage = storage) ∧
    (∀ (now : ℚ) (iso : String) (st : AppState) (storage : Option String),
      st.time > 0 →
      (saveStep ntos now iso st storage).2 =
        some (stringifySessions ntos (st.sessions ++ [mkSession now iso st]))) := by
  constructor
  · intro storage; simp [persistEffect]
  · intro now iso st storage h
    have hne : st.sessions ++ [mkSession now iso st] ≠ st.sessions := by
      intro hEq
      have := congrArg List.length hEq
      simp at this
    simp [saveStep, handleSave, handleReset, h, persistEffect, hne]

/-- Witness for `persist_only_nonempty`: a save at 65 430 ms writes the
appended log. -/
theorem persist_only_nonempty_witness :
    (⟨65430, false, true, "Green tea", []⟩ : AppState).time > 0 ∧
    (saveStep (fun _ => []) 1 "d" ⟨65430, false, true, "Green tea", []⟩ none).2 =
      some (stringifySessions (fun _ => [])
        (([] : List Session) ++ [mkSession 1 "d" ⟨65430, false, true, "Green tea", []⟩])) :=
  ⟨by decide, (persist_only_nonempty _).2 1 "d" _ none (by decide)⟩

/-! ## Claim C3: statistics over empty and singleton logs -/

/-- C3 counterexample: over the empty log `getStats` returns the JavaScript
*number* `0` for each statistic (the early return of `src/App.js:100`), not
the string `"0.00"` the claim asserts is rendered; the view shows `0`. -/
theorem getStats_empty_counterexample :
    (getStats []).average = StatVal.num 0 ∧ (getStats []).average ≠ StatVal.str "0.00" :=
  ⟨rfl, by decide⟩

/-- C3 amended: over the empty log all three statistics are the number `0`
(rendered `0`, with no error); over a singleton log each one is the single
duration formatted with `toFixed(2)`. -/
theorem getStats_empty_and_single :
    getStats [] = ⟨.num 0, .num 0, .num 0⟩ ∧
    ∀ s : Session, getStats [s] =
      ⟨.str (toFixed2 s.timeMinutes), .str (toFixed2 s.timeMinutes),
       .str (toFixed2 s.timeMinutes)⟩ := by
  refine ⟨rfl, fun s => ?_⟩
  simp [getStats, listMin, listMax]

/-! ## Claim C1: loading malformed persisted data -/

/-- C1 counterexample: the load effect has no `try`/`catch` around
`JSON.parse` (`src/App.js:21`), so the malformed stored text `oops` raises an
uncaught `SyntaxError` instead of yielding the empty session log. -/
theorem load_malformed_counterexample :
    load (some "oops") = .error "SyntaxError: JSON.parse" ∧
    load (some "oops") ≠ .ok (Jval.arr []) := by
  refine ⟨rfl, fun h => ?_⟩
  rw [show load (some "oops") = Except.error "SyntaxError: JSON.parse" from rfl] at h
  exact Except.noConfusion h

/-- C1 amended: absent data (`null` from `getItem`) and the falsy empty
string leave the log empty with no error, but malformed non-empty stored text
makes the load effect propagate the `JSON.parse` error. -/
theorem load_behavior :
    load none = .ok (Jval.arr []) ∧
    load (some "") = .ok (Jval.arr []) ∧
    ∀ s : String, s ≠ "" → parseJ s = none →
      load (some s) = .error "SyntaxError: JSON.parse" := by
  refine ⟨rfl, rfl, fun s h1 h2 => ?_⟩
  simp [load, h1, h2]

/-- Witness for `load_behavior` at the malformed stored text `oops`. -/
theorem load_behavior_witness :
    ("oops" ≠ ("" : String)) ∧ parseJ "oops" = none ∧
    load (some "oops") = .error "SyntaxError: JSON.parse" :=
  ⟨by decide, rfl, load_behavior.2.2 "oops" (by decide) rfl⟩

/-! ## Claim C2: CSV export shape -/

/-- C2 counterexample: on the empty log the export is the *unquoted* header
`Date,Time (minutes),Notes` — `headers.join(',')` at `src/App.js:126` never
quotes the header cells — not the quoted header row the claim states. -/
theorem exportToCSV_empty_counterexample :
    exportToCSV id [] = "Date,Time (minutes),Notes" ∧
    exportToCSV id [] ≠ "\"Date\",\"Time (minutes)\",\"Notes\"" :=
  ⟨rfl, by decide⟩

/-- C2 amended: the export of the empty log is exactly the unquoted header
row with no data rows; in general the output is the header followed by one
row per session in log order, each field individually double-quoted, and the
`Time (minutes)` field always ends in a dot and exactly two decimal
digits. -/
theorem exportToCSV_shape (fmtDate : String → String) :
    exportToCSV fmtDate [] = "Date,Time (minutes),Notes" ∧
    (∀ sessions : List Session, exportToCSV fmtDate sessions =
      joinWith "\n" ("Date,Time (minutes),Notes" ::
        sessions.map (fun s =>
          "\"" ++ fmtDate s.date ++ "\",\"" ++ toFixed2 s.timeMinutes ++ "\",\"" ++
            s.notes ++ "\""))) ∧
    (∀ q : ℚ, ∃ (pre : List Char) (b c : Char), b.isDigit = true ∧ c.isDigit = true ∧
      (toFixed2 q).toList = pre ++ ['.', b, c]) := by
  refine ⟨rfl, fun sessions => exportToCSV_rows fmtDate sessions, fun q => ?_⟩
  obtain ⟨b, c, hb, hc, hbc⟩ :=
    pad2_two_digits ((⌊|q| * 100 + 1/2⌋).toNat % 100) (Nat.mod_lt _ (by norm_num))
  refine ⟨((if q < 0 then "-" else "") ++
    natToString ((⌊|q| * 100 + 1/2⌋).toNat / 100)).toList, b, c, hb, hc, ?_⟩
  show ((if q < 0 then "-" else "") ++
    natToString ((⌊|q| * 100 + 1/2⌋).toNat / 100) ++ "." ++
    pad2 ((⌊|q| * 100 + 1/2⌋).toNat % 100)).toList = _
  rw [toList_append, toList_append, toList_append, hbc]
  simp [List.append_assoc]

/-! ## Claim C10: CSV line and field structure -/

/-- C10: when no notes field contains a newline or a double quote (the date
cells, rendered by the host's `toLocaleString`, and the `toFixed(2)` time
cells are likewise quote- and newline-free — for the dates this is the stated
hypothesis on the environment parameter `fmtDate`, for the times it is
proved), the exported text splits on newlines into exactly
`1 + #sessions` lines — the header plus one line per session in order — and
every data line parses as exactly three double-quoted fields, commas inside
field content notwithstanding. -/
theorem exportToCSV_line_structure (fmtDate : String → String) (sessions : List Session)
    (hnotes : ∀ s ∈ sessions, '\n' ∉ s.notes.toList ∧ '"' ∉ s.notes.toList)
    (hdate : ∀ s ∈ sessions,
      '\n' ∉ (fmtDate s.date).toList ∧ '"' ∉ (fmtDate s.date).toList) :
    splitNL (exportToCSV fmtDate sessions).toList =
      "Date,Time (minutes),Notes".toList ::
        sessions.map (fun s => csvRowChars (fmtDate s.date).toList
          (toFixed2 s.timeMinutes).toList s.notes.toList) ∧
    (splitNL (exportToCSV fmtDate sessions).toList).length = 1 + sessions.length ∧
    ∀ s ∈ sessions,
      parseCSVLine (csvRowChars (fmtDate s.date).toList (toFixed2 s.timeMinutes).toList
          s.notes.toList) =
        some [(fmtDate s.date).toList, (toFixed2 s.timeMinutes).toList, s.notes.toList] := by
  have hsplit : splitNL (exportToCSV fmtDate sessions).toList =
      "Date,Time (minutes),Notes".toList ::
        sessions.map (fun s => csvRowChars (fmtDate s.date).toList
          (toFixed2 s.timeMinutes).toList s.notes.toList) := by
    rw [exportToCSV_rows]
    rw [splitNL_joinWith _ (by simp) ?hnl]
    case hnl =>
      intro l hl
      rcases List.mem_cons.mp hl with rfl | hl
      · decide
      · obtain ⟨s, hs, rfl⟩ := List.mem_map.mp hl
        rw [rowStr_toList]
        exact csvRowChars_no_nl _ _ _ (hdate s hs).1 (toFixed2_no_newline _) (hnotes s hs).1
    rw [List.map]
    congr 1
    rw [List.map_map]
    apply List.map_congr_left
    intro s _
    exact rowStr_toList _ _ _
  refine ⟨hsplit, ?_, fun s hs => ?_⟩
  · rw [hsplit]
    simp [List.length_map, Nat.add_comm]
  · exact parseCSVLine_row _ _ _ (hdate s hs).2 (toFixed2_no_quote _) (hnotes s hs).2

/-- Witness for `exportToCSV_line_structure`: the identity date renderer and
one session whose notes contain a comma. -/
theorem exportToCSV_line_structure_witness :
    (∀ s ∈ ([⟨1, 60000, 1, "2024-01-01", "nice, tea"⟩] : List Session),
      '\n' ∉ s.notes.toList ∧ '"' ∉ s.notes.toList) ∧
    (∀ s ∈ ([⟨1, 60000, 1, "2024-01-01", "nice, tea"⟩] : List Session),
      '\n' ∉ ((fun d => d) s.date).toList ∧ '"' ∉ ((fun d => d) s.date).toList) ∧
    (splitNL (exportToCSV (fun d => d)
        [⟨1, 60000, 1, "2024-01-01", "nice, tea"⟩]).toList).length =
      1 + ([⟨1, 60000, 1, "2024-01-01", "nice, tea"⟩] : List Session).length :=
  ⟨by decide, by decide,
    (exportToCSV_line_structure (fun d => d) _ (by decide) (by decide)).2.1⟩

end TeaTimer
